import Mathlib

/-!
Verification of the change-analysis core of the repository
(`src/lib.rs`): the `Config` session value, the concurrent
`analyze_changes` pipeline, and the interactive `run` loop.

The Rust source is embedded shallowly:
* `Box<dyn GitAnalyzer>` becomes a structure of three functions
  `String → Except ε String` (each backend call terminates with a
  string or an error, per the capability contract);
* `Result<T, Box<dyn Error>>` becomes `Except ε T` with an abstract
  error type `ε`;
* the fan-out `futures::future::join_all` is modelled by an explicit
  completion schedule: tasks complete in an arbitrary order given by a
  list of indices, each completed task is written into the slot of its
  originating index, and the barrier then awaits every still-pending
  task before any result is inspected.  The completion log records the
  order in which the backend calls finished, so call counts and
  cancellation-freedom are provable statements.
-/

namespace GitBuddy

/-- Embeds the `GitAnalyzer` trait object held by `Config.model`: three
request/response operations, each returning a generated string or a
`GenerationError` (the abstract error type `ε`). -/
structure GitAnalyzer (ε : Type) where
  generate_commit_message : String → Except ε String
  analyze_file_changes : String → Except ε String
  analyze_contributor : String → Except ε String

/-- Embeds `pub struct FileAnalysis { path, explanation }` from `src/lib.rs`. -/
structure FileAnalysis where
  path : String
  explanation : String
deriving DecidableEq, Repr

/-- Embeds `pub struct Config { model, repo_path }` from `src/lib.rs`. -/
structure Config (ε : Type) where
  model : GitAnalyzer ε
  repo_path : String

namespace Config

/-- Embeds `Config::new`: `repo_path.unwrap_or_else(|| ".".to_string())`. -/
def new (model : GitAnalyzer ε) (repo_path : Option String) : Config ε :=
  { model, repo_path := repo_path.getD "." }

/-- Embeds `Config::with_new_model`: replace the backend, keep `repo_path`. -/
def with_new_model (self : Config ε) (model : GitAnalyzer ε) : Config ε :=
  { model, repo_path := self.repo_path }

/-- Embeds `Config::with_new_repo`: replace `repo_path`, keep the backend. -/
def with_new_repo (self : Config ε) (repo_path : String) : Config ε :=
  { model := self.model, repo_path }

/-- Embeds `Config::generate_commit_message`: direct delegation to the model. -/
def generate_commit_message (self : Config ε) (diff : String) : Except ε String :=
  self.model.generate_commit_message diff

/-- Embeds `Config::analyze_contributor`: direct delegation to the model. -/
def analyze_contributor (self : Config ε) (stats : String) : Except ε String :=
  self.model.analyze_contributor stats

end Config

/-- Embeds the async block built for each `(path, diff)` pair inside
`analyze_changes`:
`let explanation = model.analyze_file_changes(&diff).await?;
 Ok(FileAnalysis { path, explanation })`. -/
def analyze_task (model : GitAnalyzer ε) (pd : String × String) :
    Except ε FileAnalysis :=
  match model.analyze_file_changes pd.2 with
  | .error e => .error e
  | .ok explanation => .ok { path := pd.1, explanation }

/-- Embeds Rust's `.into_iter().collect::<Result<Vec<_>, _>>()`: the first
`Err` in list order, otherwise `Ok` of all the values in order. -/
def collectResults : List (Except ε α) → Except ε (List α)
  | [] => .ok []
  | .error e :: _ => .error e
  | .ok a :: rest =>
    match collectResults rest with
    | .error e => .error e
    | .ok l => .ok (a :: l)

/-- One completion event of the concurrent fan-out: task `k` finishes and
its result is written into slot `k`.  A repeated or out-of-range index is
a no-op (a completed future is never polled again).  The second component
logs the indices in completion order. -/
def poll_step (tasks : List α) (st : List (Option α) × List Nat) (k : Nat) :
    List (Option α) × List Nat :=
  match st.1[k]?, tasks[k]? with
  | some none, some t => (st.1.set k (some t), st.2 ++ [k])
  | _, _ => st

/-- Embeds `futures::future::join_all(analysis_futures).await`: the tasks
complete in the arbitrary order `sched`; the barrier then awaits every
still-pending task (in index order) before returning.  Returns the results
re-associated with their originating index — input order, not completion
order — together with the completion log. -/
def await_all (tasks : List α) (sched : List Nat) : List α × List Nat :=
  let st := sched.foldl (poll_step tasks) (List.replicate tasks.length none, [])
  let st := (List.range tasks.length).foldl (poll_step tasks) st
  ((st.1.zip tasks).map (fun s => s.1.getD s.2), st.2)

/-- Embeds `Config::analyze_changes`.  `file_diffs_result` is the value of
`git::get_file_diffs(repo)` (the Diff Source collaborator, outside this
crate's core file); `sched` is the real-time completion order of the
dispatched backend calls.  Returns the pipeline result together with the
completion log of backend calls (which `analyze_changes` itself discards;
it is exposed here so that call counts are provable). -/
def analyze_changes (model : GitAnalyzer ε)
    (file_diffs_result : Except ε (List (String × String)))
    (sched : List Nat) :
    Except ε (List FileAnalysis) × List Nat :=
  match file_diffs_result with
  | .error e => (.error e, [])
  | .ok file_diffs =>
    let analysis_futures := file_diffs.map (analyze_task model)
    let joined := await_all analysis_futures sched
    (collectResults joined.1, joined.2)

/-! ## The interactive session loop (`run`) -/

/-- An error returned by a UI prompt collaborator (`InputCancelled`). -/
inductive UiError
  | cancelled
deriving DecidableEq, Repr

/-- The ways the embedded `run` can stop with an error: a `?`-propagated
prompt error, a `?`-propagated `Repository::open` failure, or the
`.unwrap()` panic on an out-of-range provider index. -/
inductive RunError
  | input
  | badRepo
  | panicked
deriving DecidableEq, Repr

/-- The outcome of executing one Mode against the current session.
Modelled from the spec: the `modes` module is not under `src/`.  Per §3 a
Mode "is responsible for its own presentation of the result" and per §7
"generation errors propagate up to the Mode/UI layer for display and do
not crash the session", so a Mode whose backend call fails reports
(displays) the error itself and its `execute` still returns `Ok`; only an
operator-cancelled prompt makes `execute` return `Err`. -/
inductive Mode (ε : Type)
  | success
  | reportedError (e : ε)
  | cancelled
deriving DecidableEq, Repr

/-- Modelled from the spec: `Mode::execute` (in the `modes` module, not
under `src/`).  A reported generation error is displayed by the Mode and
`execute` completes with `Ok`; a cancelled prompt propagates as `Err`. -/
def Mode.execute : Mode ε → Except RunError Unit
  | .success => .ok ()
  | .reportedError _ => .ok ()
  | .cancelled => .error .input

/-- The external collaborators `run` consumes, embedded as data:
`validate` is the success predicate of `Repository::open`;
`providers` is `providers::get_available_providers()`; the four lists are
the successive responses of the UI prompts (an exhausted list behaves
like a failed prompt). -/
structure Env (ε : Type) where
  validate : String → Bool
  providers : List (GitAnalyzer ε)
  pathInputs : List (Except UiError String)
  providerSels : List (Except UiError Nat)
  modeSels : List (Except UiError (Mode ε))
  menuSels : List (Except UiError Nat)

/-- Embeds `Repository::open(path)`: a handle (the path itself) when the
path validates, an error otherwise. -/
def openRepository (validate : String → Bool) (path : String) :
    Except RunError String :=
  if validate path then .ok path else .error .badRepo

/-- Pop one response from a prompt stream; an exhausted stream or an
`Err` response is the prompt's `?`-propagated input error. -/
def prompt : List (Except UiError α) → Except RunError (α × List (Except UiError α))
  | [] => .error .input
  | .error _ :: _ => .error .input
  | .ok a :: rest => .ok (a, rest)

/-- Embeds the repository-selection retry loop appearing twice in `run`:
`loop { let path = ui::get_repository_path(".")?;
        match Repository::open(&path) { Ok(_) => break path, Err(_) => retry } }`.
Returns the first validating path and the unconsumed prompt responses. -/
def repo_path_loop (validate : String → Bool) :
    List (Except UiError String) →
      Except RunError (String × List (Except UiError String))
  | [] => .error .input
  | .error _ :: _ => .error .input
  | .ok path :: rest =>
    if validate path then .ok (path, rest) else repo_path_loop validate rest

/-- Observable events of a `run` execution: construction of a `Config`
value holding a repository path, execution of a Mode, and display of the
post-action menu. -/
inductive Ev
  | configPath (path : String)
  | modeRun
  | postMenu
deriving DecidableEq, Repr

/-- The repository paths recorded in an event trace: one entry per
`Config` value constructed during the run. -/
def tracePaths : List Ev → List String
  | [] => []
  | .configPath p :: rest => p :: tracePaths rest
  | .modeRun :: rest => tracePaths rest
  | .postMenu :: rest => tracePaths rest

/-- Embeds the post-action menu of `run`'s main loop (options
"Do something else" / "Switch AI model" / "Switch repository" / "Exit")
and its dispatch; `cont` is the next iteration of the loop. -/
def post_action (cont : Config ε → String → Env ε → Except RunError Unit × List Ev)
    (config : Config ε) (repo : String) (env : Env ε) :
    Except RunError Unit × List Ev :=
  match prompt env.menuSels with
  | .error e => (.error e, [.postMenu])
  | .ok (choice, ms) =>
    let env := { env with menuSels := ms }
    match choice with
    | 0 =>
      let next := cont config repo env
      (next.1, .postMenu :: next.2)
    | 1 =>
      match prompt env.providerSels with
      | .error e => (.error e, [.postMenu])
      | .ok (selected_idx, ps) =>
        let env := { env with providerSels := ps }
        match env.providers[selected_idx]? with
        | none => (.error .panicked, [.postMenu])
        | some provider =>
          let config := config.with_new_model provider
          let next := cont config repo env
          (next.1, .postMenu :: .configPath config.repo_path :: next.2)
    | 2 =>
      match repo_path_loop env.validate env.pathInputs with
      | .error e => (.error e, [.postMenu])
      | .ok (new_path, ps) =>
        let env := { env with pathInputs := ps }
        let config := config.with_new_repo new_path
        let next := cont config new_path env
        (next.1, .postMenu :: .configPath config.repo_path :: next.2)
    | _ => (.ok (), [.postMenu])

/-- Embeds `run`'s main `loop { ... }`: select a mode, execute it, then
the post-action menu.  `fuel` bounds the number of iterations (the Rust
loop is unbounded; the claims below hold for every fuel). -/
def main_loop : Nat → Config ε → String → Env ε → Except RunError Unit × List Ev
  | 0, _, _, _ => (.ok (), [])
  | fuel + 1, config, repo, env =>
    match prompt env.modeSels with
    | .error e => (.error e, [])
    | .ok (mode, ms) =>
      let env := { env with modeSels := ms }
      match mode.execute with
      | .error e => (.error e, [.modeRun])
      | .ok _ =>
        let next := post_action (main_loop fuel) config repo env
        (next.1, .modeRun :: next.2)

/-- Embeds `pub async fn run(_repo_path: Option<String>)`: the initial
repository-selection loop, provider selection, `Config::new`, the
re-open of the selected repository, then the main loop.  As in the
source, the `_repo_path` argument is bound and never used. -/
def run (_repo_path : Option String) (fuel : Nat) (env : Env ε) :
    Except RunError Unit × List Ev :=
  match repo_path_loop env.validate env.pathInputs with
  | .error e => (.error e, [])
  | .ok (repo_path, ps) =>
    let env := { env with pathInputs := ps }
    match prompt env.providerSels with
    | .error e => (.error e, [])
    | .ok (selected_idx, prs) =>
      let env := { env with providerSels := prs }
      match env.providers[selected_idx]? with
      | none => (.error .panicked, [])
      | some provider =>
        let config := Config.new provider (some repo_path)
        match openRepository env.validate config.repo_path with
        | .error e => (.error e, [.configPath config.repo_path])
        | .ok repo =>
          let next := main_loop fuel config repo env
          (next.1, .configPath config.repo_path :: next.2)

/-! ## Concrete test backends (the scenarios of spec §8) -/

/-- A backend that succeeds on every call, answering per-file analyses
with the literal scheme of the end-to-end scenario in spec §8. -/
def okBackend : GitAnalyzer String where
  generate_commit_message := fun _ => .ok "msg"
  analyze_file_changes := fun d => .ok ("exp(" ++ d ++ ")")
  analyze_contributor := fun _ => .ok "sum"

/-- A backend that fails exactly on the diff text `"+2"` with the error
`"boom"`, per the failing end-to-end scenario in spec §8. -/
def boomBackend : GitAnalyzer String where
  generate_commit_message := fun _ => .ok "msg"
  analyze_file_changes := fun d =>
    if d = "+2" then .error "boom" else .ok ("exp(" ++ d ++ ")")
  analyze_contributor := fun _ => .ok "sum"

/-- The three-file diff sequence of the end-to-end scenarios in spec §8. -/
def threeDiffs : List (String × String) :=
  [("a.txt", "+1"), ("b.txt", "+2"), ("c.txt", "+3")]

/-- A small concrete environment for the interactive loop: only the path
`"ok"` validates; the operator first types an invalid path, then `"ok"`,
picks the only provider, and the session stops when the mode prompt's
response stream is exhausted. -/
def smallEnv : Env String where
  validate := fun s => s == "ok"
  providers := [okBackend]
  pathInputs := [.ok "bad", .ok "ok"]
  providerSels := [.ok 0]
  modeSels := []
  menuSels := []

/-! ## The join barrier: slot/log invariant -/

/-- Characterization: polling a pending task `k` that exists fills slot
`k` and appends `k` to the completion log. -/
theorem poll_step_pending (tasks : List α) (st : List (Option α) × List Nat)
    (k : Nat) (t : α) (hs : st.1[k]? = some none) (ht : tasks[k]? = some t) :
    poll_step tasks st k = (st.1.set k (some t), st.2 ++ [k]) := by
  unfold poll_step
  rw [hs, ht]

/-- Characterization: polling an out-of-range slot is a no-op. -/
theorem poll_step_oob (tasks : List α) (st : List (Option α) × List Nat)
    (k : Nat) (hs : st.1[k]? = none) : poll_step tasks st k = st := by
  unfold poll_step
  rw [hs]

/-- Characterization: polling an already-completed task is a no-op. -/
theorem poll_step_done (tasks : List α) (st : List (Option α) × List Nat)
    (k : Nat) (t : α) (hs : st.1[k]? = some (some t)) :
    poll_step tasks st k = st := by
  unfold poll_step
  rw [hs]

/-- Characterization: polling a pending slot with no matching task is a
no-op (cannot arise when slot count equals task count). -/
theorem poll_step_no_task (tasks : List α) (st : List (Option α) × List Nat)
    (k : Nat) (hs : st.1[k]? = some none) (ht : tasks[k]? = none) :
    poll_step tasks st k = st := by
  unfold poll_step
  rw [hs, ht]

/-- Invariant of the fan-out barrier state: slot lengths match the task
list, a filled slot holds exactly the value of its own task, and the
completion log lists exactly the filled slots, each once. -/
structure JoinInv (tasks : List α) (st : List (Option α) × List Nat) : Prop where
  len : st.1.length = tasks.length
  sound : ∀ (i : Nat) (t : α), st.1[i]? = some (some t) → tasks[i]? = some t
  nodup : st.2.Nodup
  mem_lt : ∀ k : Nat, k ∈ st.2 → k < tasks.length
  filled_iff : ∀ i : Nat, i < tasks.length →
    ((∃ t : α, st.1[i]? = some (some t)) ↔ i ∈ st.2)

theorem joinInv_init (tasks : List α) :
    JoinInv tasks (List.replicate tasks.length none, []) := by
  refine ⟨List.length_replicate .., ?_, List.nodup_nil, ?_, ?_⟩
  · intro i t h
    rw [List.getElem?_replicate] at h
    split at h <;> simp_all
  · intro k hk
    simp at hk
  · intro i hi
    simp only [List.not_mem_nil, iff_false]
    rintro ⟨t, ht⟩
    rw [List.getElem?_replicate, if_pos hi] at ht
    simp at ht

theorem poll_step_filled_mono (tasks : List α) (st : List (Option α) × List Nat)
    (k i : Nat) (t : α) (h : st.1[i]? = some (some t)) :
    (poll_step tasks st k).1[i]? = some (some t) := by
  rcases hs : st.1[k]? with _ | o
  · rw [poll_step_oob tasks st k hs]
    exact h
  · cases o with
    | some u =>
      rw [poll_step_done tasks st k u hs]
      exact h
    | none =>
      rcases ht : tasks[k]? with _ | u
      · rw [poll_step_no_task tasks st k hs ht]
        exact h
      · rw [poll_step_pending tasks st k u hs ht]
        have hik : i ≠ k := by
          rintro rfl
          rw [hs] at h
          simp at h
        simpa [List.getElem?_set_ne (Ne.symm hik)] using h

theorem joinInv_poll (tasks : List α) (st : List (Option α) × List Nat) (k : Nat)
    (h : JoinInv tasks st) : JoinInv tasks (poll_step tasks st k) := by
  rcases hs : st.1[k]? with _ | o
  · rw [poll_step_oob tasks st k hs]
    exact h
  · cases o with
    | some u =>
      rw [poll_step_done tasks st k u hs]
      exact h
    | none =>
      rcases ht : tasks[k]? with _ | t
      · rw [poll_step_no_task tasks st k hs ht]
        exact h
      · rw [poll_step_pending tasks st k t hs ht]
        have hklen : k < st.1.length := (List.getElem?_eq_some.1 hs).1
        have hklt : k < tasks.length := (List.getElem?_eq_some.1 ht).1
        have hknot : k ∉ st.2 := by
          intro hk
          obtain ⟨t', ht'⟩ := (h.filled_iff k (h.mem_lt k hk)).2 hk
          rw [hs] at ht'
          simp at ht'
        refine ⟨?_, ?_, ?_, ?_, ?_⟩
        · simpa [List.length_set] using h.len
        · intro i t' hi
          by_cases hik : i = k
          · subst hik
            rw [List.getElem?_set_self hklen] at hi
            simp only [Option.some.injEq] at hi
            rw [← hi]
            exact ht
          · rw [List.getElem?_set_ne (Ne.symm hik)] at hi
            exact h.sound i t' hi
        · exact List.nodup_append.2 ⟨h.nodup, List.nodup_singleton k,
            fun a ha hb => by simp at hb; subst hb; exact hknot ha⟩
        · intro k' hk'
          rcases List.mem_append.1 hk' with hk' | hk'
          · exact h.mem_lt k' hk'
          · simp at hk'
            subst hk'
            exact hklt
        · intro i hi
          by_cases hik : i = k
          · subst hik
            constructor
            · intro _
              simp
            · intro _
              exact ⟨t, List.getElem?_set_self hklen⟩
          · rw [List.getElem?_set_ne (Ne.symm hik)]
            rw [h.filled_iff i hi]
            simp [hik]

theorem joinInv_foldl (tasks : List α) (L : List Nat) (st : List (Option α) × List Nat)
    (h : JoinInv tasks st) : JoinInv tasks (L.foldl (poll_step tasks) st) := by
  induction L generalizing st with
  | nil => exact h
  | cons k L ih => exact ih _ (joinInv_poll tasks st k h)

theorem foldl_filled_mono (tasks : List α) (L : List Nat)
    (st : List (Option α) × List Nat) (i : Nat) (t : α)
    (h : st.1[i]? = some (some t)) :
    (L.foldl (poll_step tasks) st).1[i]? = some (some t) := by
  induction L generalizing st with
  | nil => exact h
  | cons k L ih => exact ih _ (poll_step_filled_mono tasks st k i t h)

theorem poll_step_fills (tasks : List α) (st : List (Option α) × List Nat) (k : Nat)
    (hinv : JoinInv tasks st) (hk : k < tasks.length) :
    ∃ t, (poll_step tasks st k).1[k]? = some (some t) := by
  have hklen : k < st.1.length := by rw [hinv.len]; exact hk
  obtain ⟨o, ho⟩ : ∃ o, st.1[k]? = some o := ⟨st.1[k], List.getElem?_eq_getElem hklen⟩
  cases o with
  | some t => exact ⟨t, poll_step_filled_mono tasks st k k t ho⟩
  | none =>
    obtain ⟨t, ht⟩ : ∃ t, tasks[k]? = some t := ⟨tasks[k], List.getElem?_eq_getElem hk⟩
    refine ⟨t, ?_⟩
    rw [poll_step_pending tasks st k t ho ht]
    exact List.getElem?_set_self hklen

theorem foldl_fills_of_mem (tasks : List α) (L : List Nat)
    (st : List (Option α) × List Nat) (hinv : JoinInv tasks st)
    (i : Nat) (hi : i < tasks.length) (hmem : i ∈ L) :
    ∃ t, (L.foldl (poll_step tasks) st).1[i]? = some (some t) := by
  induction L generalizing st with
  | nil => cases hmem
  | cons k L ih =>
    rcases List.mem_cons.1 hmem with rfl | hmem'
    · obtain ⟨t, ht⟩ := poll_step_fills tasks st i hinv hi
      exact ⟨t, foldl_filled_mono tasks L _ i t ht⟩
    · exact ih _ (joinInv_poll tasks st k hinv) hmem'

theorem zip_getD_eq (slots : List (Option α)) (tasks : List α)
    (hlen : slots.length = tasks.length)
    (hsound : ∀ (i : Nat) (t : α), slots[i]? = some (some t) → tasks[i]? = some t) :
    (slots.zip tasks).map (fun s => s.1.getD s.2) = tasks := by
  induction slots generalizing tasks with
  | nil =>
    cases tasks with
    | nil => rfl
    | cons t ts => simp at hlen
  | cons s ss ih =>
    cases tasks with
    | nil => simp at hlen
    | cons t ts =>
      simp only [List.zip_cons_cons, List.map_cons]
      congr 1
      · cases s with
        | none => rfl
        | some v =>
          have hv := hsound 0 v (by simp)
          simp at hv
          simp [hv]
      · exact ih ts (by simpa using hlen)
          (fun i u h => by simpa using hsound (i + 1) u (by simpa using h))

/-- The barrier returns every task's own result, in input slot order,
for every completion schedule. -/
theorem await_all_fst (tasks : List α) (sched : List Nat) :
    (await_all tasks sched).1 = tasks := by
  have hinv : JoinInv tasks ((List.range tasks.length).foldl (poll_step tasks)
      (sched.foldl (poll_step tasks) (List.replicate tasks.length none, []))) :=
    joinInv_foldl tasks _ _ (joinInv_foldl tasks sched _ (joinInv_init tasks))
  exact zip_getD_eq _ _ hinv.len hinv.sound

/-- The completion log of the barrier is a permutation of the task
indices: every task completes exactly once, none is cancelled. -/
theorem await_all_snd_perm (tasks : List α) (sched : List Nat) :
    List.Perm (await_all tasks sched).2 (List.range tasks.length) := by
  have hinv1 : JoinInv tasks (sched.foldl (poll_step tasks)
      (List.replicate tasks.length none, [])) :=
    joinInv_foldl tasks sched _ (joinInv_init tasks)
  have hinv2 : JoinInv tasks ((List.range tasks.length).foldl (poll_step tasks)
      (sched.foldl (poll_step tasks) (List.replicate tasks.length none, []))) :=
    joinInv_foldl tasks _ _ hinv1
  refine (List.perm_ext_iff_of_nodup hinv2.nodup (List.nodup_range _)).2 ?_
  intro a
  constructor
  · intro ha
    exact List.mem_range.2 (hinv2.mem_lt a ha)
  · intro ha
    have hlt := List.mem_range.1 ha
    have hfill := foldl_fills_of_mem tasks (List.range tasks.length) _ hinv1 a hlt ha
    exact (hinv2.filled_iff a hlt).1 hfill

/-! ## Aggregation (`collect::<Result<Vec, _>>`) -/

theorem collectResults_all_ok (l : List (Except ε α))
    (h : ∀ x ∈ l, x.isOk = true) :
    ∃ l', collectResults l = .ok l' ∧
      List.Forall₂ (fun x a => x = Except.ok a) l l' := by
  induction l with
  | nil => exact ⟨[], rfl, List.Forall₂.nil⟩
  | cons x rest ih =>
    cases x with
    | error e =>
      have := h _ (List.mem_cons_self ..)
      simp [Except.isOk, Except.toBool] at this
    | ok a =>
      obtain ⟨l', hl', hf⟩ := ih (fun y hy => h y (List.mem_cons_of_mem _ hy))
      exact ⟨a :: l', by simp [collectResults, hl'], List.Forall₂.cons rfl hf⟩

theorem collectResults_first_error (l : List (Except ε α)) (j : Nat) (e : ε)
    (hj : l[j]? = some (.error e))
    (hbefore : ∀ i : Nat, i < j → ∀ x, l[i]? = some x → x.isOk = true) :
    collectResults l = .error e := by
  induction l generalizing j with
  | nil => simp at hj
  | cons x rest ih =>
    cases j with
    | zero =>
      simp at hj
      rw [hj]
      rfl
    | succ j =>
      have hx : x.isOk = true := hbefore 0 (Nat.succ_pos _) x (by simp)
      cases x with
      | error e' => simp [Except.isOk, Except.toBool] at hx
      | ok a =>
        have hrest : collectResults rest = .error e := by
          refine ih j (by simpa using hj) ?_
          intro i hi y hy
          exact hbefore (i + 1) (Nat.succ_lt_succ hi) y (by simpa using hy)
        simp [collectResults, hrest]

/-- `analyze_changes` on a successful diff-source call: the aggregation
is applied to the complete task-result list (every task has been
awaited), and the completion log is that of the barrier. -/
theorem analyze_changes_ok_eq (model : GitAnalyzer ε)
    (fds : List (String × String)) (sched : List Nat) :
    analyze_changes model (.ok fds) sched =
      (collectResults (fds.map (analyze_task model)),
        (await_all (fds.map (analyze_task model)) sched).2) := by
  show (collectResults (await_all (fds.map (analyze_task model)) sched).1,
      (await_all (fds.map (analyze_task model)) sched).2) = _
  rw [await_all_fst]

/-- Helper: a task built from a diff whose backend call succeeds is `ok`. -/
theorem analyze_task_isOk (model : GitAnalyzer ε) (pd : String × String)
    (h : (model.analyze_file_changes pd.2).isOk = true) :
    (analyze_task model pd).isOk = true := by
  unfold analyze_task
  cases hm : model.analyze_file_changes pd.2 with
  | error e =>
    rw [hm] at h
    simp [Except.isOk, Except.toBool] at h
  | ok s => rfl

/-! ## Claim theorems: the change-analysis pipeline -/

/-- C1: for every diff sequence on which every per-file backend call
succeeds, `analyze_changes` returns `Ok` with one fixed `FileAnalysis`
list — the same for every completion schedule of the concurrent tasks —
whose length and path order match the input `FileDiff` sequence
(`List.Forall₂` pairs them index by index), each explanation being the
backend's result for the diff at the same index. -/
theorem analyze_changes_success_ordered (model : GitAnalyzer ε)
    (fds : List (String × String))
    (hok : ∀ pd ∈ fds, (model.analyze_file_changes pd.2).isOk = true) :
    ∃ l, (∀ sched : List Nat,
        (analyze_changes model (.ok fds) sched).1 = .ok l) ∧
      List.Forall₂ (fun (pd : String × String) (fa : FileAnalysis) =>
        fa.path = pd.1 ∧ model.analyze_file_changes pd.2 = .ok fa.explanation)
        fds l := by
  have htasks : ∀ x ∈ fds.map (analyze_task model), x.isOk = true := by
    intro x hx
    obtain ⟨pd, hpd, rfl⟩ := List.mem_map.1 hx
    exact analyze_task_isOk model pd (hok pd hpd)
  obtain ⟨l, hl, hf⟩ := collectResults_all_ok _ htasks
  refine ⟨l, ?_, ?_⟩
  · intro sched
    rw [analyze_changes_ok_eq]
    exact hl
  · refine (List.forall₂_map_left_iff.1 hf).imp ?_
    intro pd fa h
    unfold analyze_task at h
    cases hm : model.analyze_file_changes pd.2 with
    | error e =>
      rw [hm] at h
      cases h
    | ok s =>
      rw [hm] at h
      injection h with h
      rw [← h]
      exact ⟨rfl, rfl⟩

/-- Witness for C1: the end-to-end scenario of spec §8 — three files,
all succeeding, analyses in input order. -/
theorem analyze_changes_success_ordered_witness :
    ∃ l, (∀ sched : List Nat,
        (analyze_changes okBackend (.ok threeDiffs) sched).1 = .ok l) ∧
      List.Forall₂ (fun (pd : String × String) (fa : FileAnalysis) =>
        fa.path = pd.1 ∧ okBackend.analyze_file_changes pd.2 = .ok fa.explanation)
        threeDiffs l :=
  analyze_changes_success_ordered okBackend threeDiffs (by decide)

/-- C2: when one or more per-file backend calls fail, `analyze_changes`
returns the error of the failing diff with the lowest input index `j`
(every earlier-index call succeeds), for every completion schedule —
i.e. even when a later-index call fails first in real time — and the
successful results of the other tasks are discarded (the pipeline's
value is the bare error). -/
theorem analyze_changes_first_error_in_order (model : GitAnalyzer ε)
    (fds : List (String × String)) (j : Nat) (pdj : String × String) (e : ε)
    (hj : fds[j]? = some pdj)
    (hfail : model.analyze_file_changes pdj.2 = .error e)
    (hbefore : ∀ i : Nat, i < j → ∀ pd, fds[i]? = some pd →
      (model.analyze_file_changes pd.2).isOk = true) :
    ∀ sched : List Nat, (analyze_changes model (.ok fds) sched).1 = .error e := by
  intro sched
  rw [analyze_changes_ok_eq]
  refine collectResults_first_error _ j e ?_ ?_
  · rw [List.getElem?_map, hj]
    simp only [Option.map_some']
    unfold analyze_task
    rw [hfail]
  · intro i hi x hx
    rw [List.getElem?_map] at hx
    cases hpd : fds[i]? with
    | none =>
      rw [hpd] at hx
      cases hx
    | some pd =>
      rw [hpd] at hx
      simp only [Option.map_some', Option.some.injEq] at hx
      rw [← hx]
      exact analyze_task_isOk model pd (hbefore i hi pd hpd)

/-- Witness for C2: the failing end-to-end scenario of spec §8 — the
backend fails only on `"+2"` (index 1) with `"boom"`, and the pipeline
reports `"boom"` under the schedule `[2, 0, 1]`, in which the
later-index task completes (and would fail) first in real time. -/
theorem analyze_changes_first_error_in_order_witness :
    (analyze_changes boomBackend (.ok threeDiffs) [2, 0, 1]).1 = .error "boom" :=
  analyze_changes_first_error_in_order boomBackend threeDiffs 1 ("b.txt", "+2")
    "boom" rfl rfl
    (by
      intro i hi pd hpd
      have hzero : i = 0 := by omega
      subst hzero
      have h0 : threeDiffs[0]? = some (("a.txt", "+1") : String × String) := rfl
      rw [h0] at hpd
      injection hpd with hpd
      subst hpd
      rfl)
    [2, 0, 1]

/-- C3: the pipeline awaits every dispatched task before observing any
outcome: for every input diff sequence (including ones with failing
calls) and every completion schedule, the completion log of the backend
fan-out has exactly one entry per input diff (call count equals input
length, each task index completing exactly once — no cancellation), and
the aggregated result is a function of the complete task-result list. -/
theorem analyze_changes_awaits_all (model : GitAnalyzer ε)
    (fds : List (String × String)) (sched : List Nat) :
    (analyze_changes model (.ok fds) sched).2.length = fds.length ∧
    List.Perm (analyze_changes model (.ok fds) sched).2 (List.range fds.length) ∧
    (analyze_changes model (.ok fds) sched).1 =
      collectResults (fds.map (analyze_task model)) := by
  have hperm := await_all_snd_perm (fds.map (analyze_task model)) sched
  rw [List.length_map] at hperm
  rw [analyze_changes_ok_eq]
  exact ⟨by simpa [List.length_range] using hperm.length_eq, hperm, rfl⟩

/-- C7: when the Diff Source call fails, `analyze_changes` fails
immediately with that underlying error and the completion log is empty —
zero backend calls are made. -/
theorem analyze_changes_diff_source_error (model : GitAnalyzer ε) (e : ε)
    (sched : List Nat) :
    analyze_changes model (.error e) sched = (.error e, []) := rfl

/-- C8: on an empty diff sequence, `analyze_changes` returns `Ok` with an
empty result sequence and an empty completion log — zero backend calls. -/
theorem analyze_changes_empty (model : GitAnalyzer ε) (sched : List Nat) :
    analyze_changes model (.ok []) sched = (.ok [], []) := by
  rw [analyze_changes_ok_eq]
  have hperm := await_all_snd_perm ((List.map (analyze_task model)) []) sched
  simp only [List.map_nil, List.length_nil, List.range_zero] at hperm
  have : (await_all ([] : List (Except ε FileAnalysis)) sched).2 = [] :=
    hperm.eq_nil
  simp only [List.map_nil]
  rw [this]
  rfl

/-! ## Claim theorems: the session value -/

/-- C5: `with_new_model` preserves `repo_path` (and installs the new
backend); `with_new_repo` preserves `model` (and installs the new path).
The embedding is by-value: both operations are pure functions of their
arguments, so the original `Config` value `c` is untouched — the frame
equations below are stated against `c`'s own fields. -/
theorem config_replacement_frame (c : Config ε) (m : GitAnalyzer ε) (p : String) :
    (c.with_new_model m).repo_path = c.repo_path ∧
    (c.with_new_model m).model = m ∧
    (c.with_new_repo p).model = c.model ∧
    (c.with_new_repo p).repo_path = p :=
  ⟨rfl, rfl, rfl, rfl⟩

/-- C9: `Config::new` stores `"."` when given no path and stores a given
path verbatim, performing no validation: even when the path is rejected
by the validity oracle (`validate p = false`), the constructor stores it
as given. -/
theorem config_new_no_validation (m : GitAnalyzer ε) (p : String)
    (validate : String → Bool) (_hp : validate p = false) :
    (Config.new m none).repo_path = "." ∧
    (Config.new m (some p)).repo_path = p :=
  ⟨rfl, rfl⟩

/-- Witness for C9: a path no oracle accepts is still stored verbatim. -/
theorem config_new_no_validation_witness :
    (Config.new okBackend none).repo_path = "." ∧
    (Config.new okBackend (some "/no/such/repo")).repo_path = "/no/such/repo" :=
  config_new_no_validation okBackend "/no/such/repo" (fun _ => false) rfl

/-! ## Claim theorems: the interactive session loop -/

/-- C4: when the selected Mode's execution completes with a reported
(generation) error, the session loop transitions to the post-action menu
exactly as on success — it does not terminate.  Spec-modelled:
`Mode::execute` lives in the `modes` module, which is not under `src/`;
per spec §4.4/§7 it displays generation errors itself and returns `Ok`. -/
theorem mode_error_reaches_post_action (fuel : Nat) (config : Config ε)
    (repo : String) (env : Env ε) (e : ε)
    (ms : List (Except UiError (Mode ε))) :
    (main_loop (fuel + 1) config repo
        { env with modeSels := .ok (.reportedError e) :: ms } =
      ((post_action (main_loop fuel) config repo
          { env with modeSels := ms }).1,
        .modeRun :: (post_action (main_loop fuel) config repo
          { env with modeSels := ms }).2)) ∧
    main_loop (fuel + 1) config repo
        { env with modeSels := .ok (.reportedError e) :: ms } =
      main_loop (fuel + 1) config repo
        { env with modeSels := .ok .success :: ms } :=
  ⟨rfl, rfl⟩

/-- C10: `run` ignores its `_repo_path` argument entirely: any two
argument values (including `none`) give the same result and the same
event trace on the same environment. -/
theorem run_ignores_arg (a b : Option String) (fuel : Nat) (env : Env ε) :
    run a fuel env = run b fuel env := rfl

/-- The repository-selection loop only ever returns a validated path. -/
theorem repo_path_loop_validates (validate : String → Bool)
    (inputs : List (Except UiError String)) (path : String)
    (rest : List (Except UiError String))
    (h : repo_path_loop validate inputs = .ok (path, rest)) :
    validate path = true := by
  induction inputs with
  | nil => cases h
  | cons x inputs ih =>
    cases x with
    | error u => cases h
    | ok p =>
      unfold repo_path_loop at h
      by_cases hv : validate p
      · rw [if_pos hv] at h
        injection h with h
        injection h with h1 h2
        rw [← h1]
        exact hv
      · rw [if_neg hv] at h
        exact ih h

/-- Every path recorded by one post-action step is validated, provided
the current config's path is and the continuation preserves the
property. -/
theorem post_action_paths
    (cont : Config ε → String → Env ε → Except RunError Unit × List Ev)
    (hcont : ∀ (config : Config ε) (repo : String) (env : Env ε),
      env.validate config.repo_path = true →
      ∀ p ∈ tracePaths (cont config repo env).2, env.validate p = true)
    (config : Config ε) (repo : String) (env : Env ε)
    (hcfg : env.validate config.repo_path = true) :
    ∀ p ∈ tracePaths (post_action cont config repo env).2,
      env.validate p = true := by
  obtain ⟨v, provs, pis, prsels, msels, mnsels⟩ := env
  simp only at hcfg
  cases mnsels with
  | nil =>
    intro p hp
    simp [post_action, prompt, tracePaths] at hp
  | cons x mns =>
    cases x with
    | error u =>
      intro p hp
      simp [post_action, prompt, tracePaths] at hp
    | ok choice =>
      match choice with
      | 0 =>
        intro p hp
        simp only [post_action, prompt, tracePaths] at hp
        exact hcont config repo ⟨v, provs, pis, prsels, msels, mns⟩ hcfg p hp
      | 1 =>
        cases prsels with
        | nil =>
          intro p hp
          simp [post_action, prompt, tracePaths] at hp
        | cons y prs =>
          cases y with
          | error u =>
            intro p hp
            simp [post_action, prompt, tracePaths] at hp
          | ok selected_idx =>
            cases hpi : provs[selected_idx]? with
            | none =>
              intro p hp
              simp [post_action, prompt, tracePaths, hpi] at hp
            | some provider =>
              intro p hp
              simp only [post_action, prompt, tracePaths, hpi,
                List.mem_cons] at hp
              rcases hp with rfl | hp
              · exact hcfg
              · exact hcont (config.with_new_model provider) repo
                  ⟨v, provs, pis, prs, msels, mns⟩ hcfg p hp
      | 2 =>
        cases hrl : repo_path_loop v pis with
        | error e =>
          intro p hp
          simp [post_action, prompt, tracePaths, hrl] at hp
        | ok pr2 =>
          obtain ⟨new_path, ps⟩ := pr2
          have hv : v new_path = true :=
            repo_path_loop_validates v pis new_path ps hrl
          intro p hp
          simp only [post_action, prompt, tracePaths, hrl,
            List.mem_cons] at hp
          rcases hp with rfl | hp
          · exact hv
          · exact hcont (config.with_new_repo new_path) new_path
              ⟨v, provs, ps, prsels, msels, mns⟩ hv p hp
      | (n + 3) =>
        intro p hp
        simp [post_action, prompt, tracePaths] at hp

/-- Every path recorded by the main loop is validated, provided the
current config's path is. -/
theorem main_loop_paths (fuel : Nat) (config : Config ε) (repo : String)
    (env : Env ε) (hcfg : env.validate config.repo_path = true) :
    ∀ p ∈ tracePaths (main_loop fuel config repo env).2,
      env.validate p = true := by
  induction fuel generalizing config repo env with
  | zero =>
    intro p hp
    simp [main_loop, tracePaths] at hp
  | succ fuel ih =>
    obtain ⟨v, provs, pis, prsels, msels, mnsels⟩ := env
    simp only at hcfg
    cases msels with
    | nil =>
      intro p hp
      simp [main_loop, prompt, tracePaths] at hp
    | cons x ms =>
      cases x with
      | error u =>
        intro p hp
        simp [main_loop, prompt, tracePaths] at hp
      | ok mode =>
        cases he : mode.execute with
        | error e =>
          intro p hp
          simp [main_loop, prompt, tracePaths, he] at hp
        | ok u =>
          intro p hp
          simp only [main_loop, prompt, tracePaths, he] at hp
          exact post_action_paths (main_loop fuel)
            (fun c r en hc => ih c r en hc) config repo
            ⟨v, provs, pis, prsels, ms, mnsels⟩ hcfg p hp

/-- C6: every repository path held by a `Config` during a `run`
execution — the one stored at initial construction and every one stored
on a backend or repository switch — has been accepted by
`Repository::open`'s validator before the construction or replacement:
every path in the run's event trace satisfies the validator. -/
theorem run_paths_validated (a : Option String) (fuel : Nat) (env : Env ε) :
    ∀ p ∈ tracePaths (run a fuel env).2, env.validate p = true := by
  obtain ⟨v, provs, pis, prsels, msels, mnsels⟩ := env
  simp only
  cases hr : repo_path_loop v pis with
  | error e =>
    intro p hp
    simp [run, tracePaths, hr] at hp
  | ok pr =>
    obtain ⟨repo_path, ps⟩ := pr
    have hv : v repo_path = true :=
      repo_path_loop_validates v pis repo_path ps hr
    cases prsels with
    | nil =>
      intro p hp
      simp [run, prompt, tracePaths, hr] at hp
    | cons y prs =>
      cases y with
      | error u =>
        intro p hp
        simp [run, prompt, tracePaths, hr] at hp
      | ok selected_idx =>
        cases hpi : provs[selected_idx]? with
        | none =>
          intro p hp
          simp [run, prompt, tracePaths, hr, hpi] at hp
        | some provider =>
          cases ho : openRepository v
              (Config.new provider (some repo_path)).repo_path with
          | error e =>
            intro p hp
            simp only [run, prompt, tracePaths, hr, hpi, ho,
              List.mem_cons] at hp
            rcases hp with rfl | hp
            · exact hv
            · simp [tracePaths] at hp
          | ok repo =>
            intro p hp
            simp only [run, prompt, tracePaths, hr, hpi, ho,
              List.mem_cons] at hp
            rcases hp with rfl | hp
            · exact hv
            · exact main_loop_paths fuel (Config.new provider (some repo_path))
                repo ⟨v, provs, ps, prs, msels, mnsels⟩ hv p hp

/-- Witness for C6: in the concrete environment `smallEnv`, the run
stores the path `"ok"` (the second operator input; the first was
rejected) and the validator indeed accepts it. -/
theorem run_paths_validated_witness : smallEnv.validate "ok" = true :=
  run_paths_validated none 1 smallEnv "ok"
    (by
      have htr : tracePaths (run none 1 smallEnv).2 = ["ok"] := rfl
      rw [htr]
      exact List.mem_singleton.2 rfl)

end GitBuddy
